import Mathlib

/-!
Verification development for the gyld-teams balanced-team assigner.

The source program (src/index.ts) reads player records, min-max normalizes
three engagement metrics into a composite `engagement_score`, and then runs
10 seeded trials; each trial shuffles the players with a seeded swap-based
shuffle and greedily assigns them to the currently lowest-total team
(stable sort by total before every pick).  The trial whose per-team average
scores have the lowest population standard deviation is kept (strict
improvement only, so the earliest trial wins ties).

Numbers are modelled by `ℚ` (exact arithmetic for the algorithmic content);
the one square root, inside `calculateStandardDeviation`, lands in `ℝ`.
The seeded random generator (the external `seedrandom` library) is modelled
as an abstract stream `ℕ → ℚ` of unit-interval draws, one per call.
-/

attribute [local semireducible] Rat.mul Rat.inv Rat.add Rat.sub List.mergeSort List.merge

/-- Player record of src/index.ts: the three raw metrics plus the derived
composite score (initialised to 0 by `readAndProcessPlayerData`). -/
structure Player where
  player_id : String
  historical_event_engagements : ℚ
  historical_messages_sent : ℚ
  days_active_last_30 : ℚ
  engagement_score : ℚ
deriving DecidableEq

/-- Team accumulator of src/index.ts: id (1-based), the players assigned so
far in assignment order, and the running total of their engagement scores. -/
structure Team where
  id : ℤ
  players : List Player
  total_engagement_score : ℚ
deriving DecidableEq

/-- Swap the entries at positions `i` and `j` of a list, the effect of the
destructuring assignment `[a[i], a[j]] = [a[j], a[i]]` in the source's
`shuffle`.  Out-of-range indices leave the list unchanged (the source never
produces them when the generator yields values in `[0,1)`). -/
def listSwap {α : Type} (l : List α) (i j : ℕ) : List α :=
  match l.get? i, l.get? j with
  | some x, some y => (l.set i y).set j x
  | _, _ => l

/-- Loop body of the source's `shuffle`: `currentIndex` counts down from the
length; each iteration draws `rng()` (the `k`-th call of the stream), picks
`randomIndex = Math.floor(rng() * currentIndex)`, decrements, and swaps the
entries at `currentIndex` and `randomIndex`. -/
def shuffleAux {α : Type} (rng : ℕ → ℚ) : ℕ → ℕ → List α → List α
  | 0, _, arr => arr
  | currentIndex + 1, k, arr =>
    shuffleAux rng currentIndex (k + 1)
      (listSwap arr currentIndex (⌊rng k * ((currentIndex : ℚ) + 1)⌋).toNat)

/-- Model of `shuffle` (src/index.ts lines 22-38): the seeded swap-based
shuffle, with the generator abstracted as the stream of its draws. -/
def shuffle {α : Type} (array : List α) (rng : ℕ → ℚ) : List α :=
  shuffleAux rng array.length 0 array

/-- Loop body of the spec's variant of the shuffle, which stops at index 1
instead of index 0 (see `shuffleSpecModel`). -/
def shuffleSpecAux {α : Type} (rng : ℕ → ℚ) : ℕ → ℕ → List α → List α
  | 0, _, arr => arr
  | 1, _, arr => arr
  | currentIndex + 2, k, arr =>
    shuffleSpecAux rng (currentIndex + 1) (k + 1)
      (listSwap arr (currentIndex + 1) (⌊rng k * (((currentIndex : ℚ) + 1) + 1)⌋).toNat)

/-- Modelled from the spec's words (section 4.2): the standard swap-based
shuffle stated there runs "for index `i` from `length-1` down to `1`",
whereas the source loops down to index 0 (the extra step draws one more
random number but swaps position 0 with itself, a no-op when the draw lies
in `[0,1)`).  This definition follows the spec's words, for comparison with
`shuffle`. -/
def shuffleSpecModel {α : Type} (array : List α) (rng : ℕ → ℚ) : List α :=
  shuffleSpecAux rng array.length 0 array

theorem listSwap_length {α : Type} (l : List α) (i j : ℕ) :
    (listSwap l i j).length = l.length := by
  unfold listSwap
  rcases h1 : l.get? i with _ | x <;> rcases h2 : l.get? j with _ | y <;> simp

theorem set_of_get?_eq {α : Type} :
    ∀ (l : List α) (i : ℕ) (x : α), l.get? i = some x → l.set i x = l := by
  intro l
  induction l with
  | nil => intro i x h; simp at h
  | cons a t ih =>
    intro i x h
    cases i with
    | zero => simp_all
    | succ n => simp only [List.get?_cons_succ] at h; simp [ih n x h]

theorem cons_set_perm {α : Type} :
    ∀ (l : List α) (m : ℕ) (a y : α), l.get? m = some y →
      List.Perm (y :: l.set m a) (a :: l) := by
  intro l
  induction l with
  | nil => intro m a y h; simp at h
  | cons b t ih =>
    intro m a y h
    cases m with
    | zero =>
      simp only [List.get?_cons_zero, Option.some.injEq] at h
      subst h
      simpa using List.Perm.swap a b t
    | succ n =>
      simp only [List.get?_cons_succ] at h
      have step := ih n a y h
      have chain : List.Perm (y :: b :: t.set n a) (a :: b :: t) :=
        (List.Perm.swap b y _).trans ((step.cons b).trans (List.Perm.swap a b t))
      simpa using chain

theorem set_set_perm {α : Type} :
    ∀ (l : List α) (i j : ℕ) (x y : α), l.get? i = some x → l.get? j = some y →
      List.Perm ((l.set i y).set j x) l := by
  intro l
  induction l with
  | nil => intro i j x y h1 _; simp at h1
  | cons a t ih =>
    intro i j x y h1 h2
    cases i with
    | zero =>
      simp only [List.get?_cons_zero, Option.some.injEq] at h1
      subst h1
      cases j with
      | zero =>
        simp only [List.get?_cons_zero, Option.some.injEq] at h2
        subst h2
        simp
      | succ n =>
        simp only [List.get?_cons_succ] at h2
        simpa using cons_set_perm t n a y h2
    | succ m =>
      simp only [List.get?_cons_succ] at h1
      cases j with
      | zero =>
        simp only [List.get?_cons_zero, Option.some.injEq] at h2
        subst h2
        simpa using cons_set_perm t m a x h1
      | succ n =>
        simp only [List.get?_cons_succ] at h2
        simpa using (ih m n x y h1 h2).cons a

theorem listSwap_perm {α : Type} (l : List α) (i j : ℕ) :
    List.Perm (listSwap l i j) l := by
  unfold listSwap
  rcases h1 : l.get? i with _ | x
  · exact List.Perm.refl l
  · rcases h2 : l.get? j with _ | y
    · exact List.Perm.refl l
    · exact set_set_perm l i j x y h1 h2

theorem shuffleAux_perm {α : Type} (rng : ℕ → ℚ) :
    ∀ (ci k : ℕ) (arr : List α), List.Perm (shuffleAux rng ci k arr) arr := by
  intro ci
  induction ci with
  | zero => intro k arr; exact List.Perm.refl arr
  | succ n ih =>
    intro k arr
    exact (ih (k + 1) _).trans (listSwap_perm arr n _)

theorem shuffle_perm {α : Type} (array : List α) (rng : ℕ → ℚ) :
    List.Perm (shuffle array rng) array :=
  shuffleAux_perm rng array.length 0 array

theorem shuffleAux_length {α : Type} (rng : ℕ → ℚ) (ci k : ℕ) (arr : List α) :
    (shuffleAux rng ci k arr).length = arr.length :=
  (shuffleAux_perm rng ci k arr).length_eq

theorem listSwap_self {α : Type} (l : List α) (i : ℕ) : listSwap l i i = l := by
  unfold listSwap
  rcases h : l.get? i with _ | x
  · rfl
  · show (l.set i x).set i x = l
    rw [List.set_set, set_of_get?_eq l i x h]

theorem shuffleAux_eq_specAux {α : Type} (rng : ℕ → ℚ)
    (hrng : ∀ j, 0 ≤ rng j ∧ rng j < 1) :
    ∀ (ci k : ℕ) (arr : List α), shuffleAux rng ci k arr = shuffleSpecAux rng ci k arr := by
  intro ci
  induction ci with
  | zero => intro k arr; rfl
  | succ n ih =>
    intro k arr
    match n, ih with
    | 0, _ =>
      have hfloor : ⌊rng k * ((0 : ℚ) + 1)⌋ = 0 := by
        rw [Int.floor_eq_zero_iff]
        constructor
        · simpa using (hrng k).1
        · simpa using (hrng k).2
      show shuffleAux rng 0 (k + 1) (listSwap arr 0 (⌊rng k * ((0 : ℚ) + 1)⌋).toNat) = arr
      rw [hfloor]
      exact listSwap_self arr 0
    | m + 1, ih =>
      show shuffleAux rng (m + 1) (k + 1) _ = shuffleSpecAux rng (m + 1) (k + 1) _
      rw [ih]
      norm_cast

theorem shuffle_eq_shuffleSpecModel {α : Type} (array : List α) (rng : ℕ → ℚ)
    (hrng : ∀ j, 0 ≤ rng j ∧ rng j < 1) :
    shuffle array rng = shuffleSpecModel array rng :=
  shuffleAux_eq_specAux rng hrng array.length 0 array

/-- Metric names handed to `normalizeAndScore` by `readAndProcessPlayerData`
(the `metrics` array of keys of `Player`). -/
inductive Metric where
  | historical_event_engagements
  | historical_messages_sent
  | days_active_last_30
deriving DecidableEq

/-- Field lookup `player[metric]` for the three numeric metric keys. -/
def Player.metric (p : Player) : Metric → ℚ
  | .historical_event_engagements => p.historical_event_engagements
  | .historical_messages_sent => p.historical_messages_sent
  | .days_active_last_30 => p.days_active_last_30

/-- Model of `Math.min(...values)`.  On the empty list JavaScript yields
`Infinity`; the program only ever consumes the value when the player list
is non-empty, so the empty case carries an arbitrary placeholder. -/
def listMin (values : List ℚ) : ℚ :=
  match values with
  | [] => 0
  | v :: rest => rest.foldl min v

/-- Model of `Math.max(...values)`; see `listMin` for the empty case. -/
def listMax (values : List ℚ) : ℚ :=
  match values with
  | [] => 0
  | v :: rest => rest.foldl max v

/-- Per-metric minimum over all players, the `minMax[metric].min` table of
`normalizeAndScore`. -/
def metricMin (players : List Player) (m : Metric) : ℚ :=
  listMin (players.map (fun p => p.metric m))

/-- Per-metric maximum over all players, the `minMax[metric].max` table. -/
def metricMax (players : List Player) (m : Metric) : ℚ :=
  listMax (players.map (fun p => p.metric m))

/-- Body of the inner loop of `normalizeAndScore`: the min-max normalized
value of `value` for metric `m`, `0` when `max - min === 0`. -/
def normalizedValue (players : List Player) (m : Metric) (value : ℚ) : ℚ :=
  if metricMax players m - metricMin players m = 0 then 0
  else (value - metricMin players m) / (metricMax players m - metricMin players m)

/-- Model of `normalizeAndScore` (src/index.ts lines 161-185): each player's
`engagement_score` is set to the sum of its normalized metric values divided
by the number of metrics.  The source's `map` callback assigns the score
onto the input record itself (`player.engagement_score = ...`) and returns
that same record, so the returned array's records are the caller's records;
see `inputRecordsAfterScoring`. -/
def normalizeAndScore (players : List Player) (metrics : List Metric) : List Player :=
  players.map fun player =>
    { player with
        engagement_score :=
          (metrics.foldl (fun acc m => acc + normalizedValue players m (player.metric m)) 0) /
            (metrics.length : ℚ) }

/-- Contents of the caller's array after `normalizeAndScore` returns.  In
the source the `map` callback mutates each input record in place and
returns it, so after the call the caller's array holds exactly the scored
records, not the original ones. -/
def inputRecordsAfterScoring (players : List Player) (metrics : List Metric) : List Player :=
  normalizeAndScore players metrics

/-- Metric list built by `readAndProcessPlayerData`. -/
def theMetrics : List Metric :=
  [Metric.historical_event_engagements, Metric.historical_messages_sent,
    Metric.days_active_last_30]

/-- Raw parsed CSV row: identifier and the three numeric metric columns. -/
structure RawRecord where
  player_id : String
  historical_event_engagements : ℚ
  historical_messages_sent : ℚ
  days_active_last_30 : ℚ
deriving DecidableEq

/-- Error kinds named by the design documents.  The source defines no such
error classes; this type exists so that claims about raising (or not
raising) them can be stated. -/
inductive RunError where
  | invalidConfiguration
  | emptyInput
deriving DecidableEq

/-- Model of `readAndProcessPlayerData` (src/index.ts lines 135-159) after
CSV parsing: build `Player` values with `engagement_score := 0`, then score
them.  The source performs no emptiness check and can throw nothing on this
path, so the result is always `Except.ok`. -/
def readAndProcessPlayerData (records : List RawRecord) : Except RunError (List Player) :=
  Except.ok (normalizeAndScore
    (records.map fun record =>
      { player_id := record.player_id
        historical_event_engagements := record.historical_event_engagements
        historical_messages_sent := record.historical_messages_sent
        days_active_last_30 := record.days_active_last_30
        engagement_score := 0 })
    theMetrics)

/-- Comparator of the per-pick team sort, `(a, b) => a.total_engagement_score
- b.total_engagement_score`: ascending by running total.  JavaScript's
`Array.prototype.sort` is stable, modelled by the stable `List.mergeSort`. -/
def teamLe (a b : Team) : Bool :=
  a.total_engagement_score ≤ b.total_engagement_score

/-- One iteration of the assignment loop (src/index.ts lines 83-90): sort
the team array in place by running total (stable), take `teams[0]` as the
target if it exists, append the player and add the score.  With no teams
the guard `if (targetTeam)` skips the assignment. -/
def assignStep (teams : List Team) (player : Player) : List Team :=
  match List.mergeSort teams teamLe with
  | [] => []
  | targetTeam :: rest =>
    { targetTeam with
        players := targetTeam.players ++ [player],
        total_engagement_score :=
          targetTeam.total_engagement_score + player.engagement_score } :: rest

/-- The `shuffledPlayers.forEach` assignment loop. -/
def assignPlayers (shuffledPlayers : List Player) (teams : List Team) : List Team :=
  shuffledPlayers.foldl assignStep teams

/-- Fresh teams of one trial, `Array.from({ length: numTeams }, (_, id) =>
...)`: ids `1..numTeams`, no players, zero total.  JavaScript's `ToLength`
clamps a negative length to 0, modelled by `Int.toNat`. -/
def makeTeams (numTeams : ℤ) : List Team :=
  (List.range numTeams.toNat).map fun (id : ℕ) =>
    { id := (id : ℤ) + 1, players := [], total_engagement_score := 0 }

/-- Per-team average `t.total_engagement_score / (t.players.length || 1)`:
the divisor is 1 when the team is empty. -/
def teamAvg (t : Team) : ℚ :=
  t.total_engagement_score / (if t.players.length = 0 then 1 else (t.players.length : ℚ))

/-- Mean and variance computed by `calculateStandardDeviation` (src/index.ts
lines 187-194): population variance, dividing by the list length. -/
def calculateVariance (numbers : List ℚ) : ℚ :=
  let mean := numbers.foldl (fun a b => a + b) 0 / (numbers.length : ℚ)
  numbers.foldl (fun a b => a + (b - mean) ^ 2) 0 / (numbers.length : ℚ)

/-- Model of `calculateStandardDeviation`: 0 on the empty list, otherwise
the square root of the population variance of the entries. -/
noncomputable def calculateStandardDeviation (numbers : List ℚ) : ℝ :=
  if numbers.length = 0 then 0 else Real.sqrt (calculateVariance numbers)

/-- Number of trials, the constant `trials = 10` of `main`. -/
def trials : ℕ := 10

/-- Mutable trial-selection state of `main`: `bestAssignment` (initially
`[]`), `lowestStdDev` (initially `Infinity`, modelled as `⊤`), and
`bestTrialIndex` (initially `-1`). -/
structure SelectionState where
  bestAssignment : List Team
  lowestStdDev : WithTop ℝ
  bestTrialIndex : ℤ

/-- One trial of `main`: shuffle a fresh copy of the players with the
trial's generator, then run the assignment loop over fresh teams. -/
def runTrial (players : List Player) (numTeams : ℤ) (rng : ℕ → ℚ) : List Team :=
  assignPlayers (shuffle players rng) (makeTeams numTeams)

/-- Dispersion of one trial: standard deviation of the per-team averages. -/
noncomputable def trialStdDev (teams : List Team) : ℝ :=
  calculateStandardDeviation (teams.map teamAvg)

open Classical in
/-- Body of the trial loop of `main` for trial index `i`: keep the trial's
partition exactly when its standard deviation is strictly below the lowest
seen so far.  `rngAt i` is the generator seeded with the derived seed
`seed-i`. -/
noncomputable def selectTrial (players : List Player) (numTeams : ℤ)
    (rngAt : ℕ → ℕ → ℚ) (state : SelectionState) (i : ℕ) : SelectionState :=
  let teams := runTrial players numTeams (rngAt i)
  let stdDev := trialStdDev teams
  if (stdDev : WithTop ℝ) < state.lowestStdDev then
    { bestAssignment := teams,
      lowestStdDev := (stdDev : WithTop ℝ),
      bestTrialIndex := (i : ℤ) + 1 }
  else state

/-- The trial loop of `main` (src/index.ts lines 59-107). -/
noncomputable def runTrials (players : List Player) (numTeams : ℤ)
    (rngAt : ℕ → ℕ → ℚ) : SelectionState :=
  (List.range trials).foldl (selectTrial players numTeams rngAt) ⟨[], ⊤, -1⟩

/-- End-to-end computational pipeline of `main` after argument and CSV
parsing: score the records, run the trials, return the chosen partition.
The source validates neither the team count nor emptiness of the input, and
throws nothing on this path, so the result is always `Except.ok`. -/
noncomputable def mainProgram (records : List RawRecord) (numTeams : ℤ)
    (rngAt : ℕ → ℕ → ℚ) : Except RunError (List Team) :=
  (readAndProcessPlayerData records).map fun players =>
    (runTrials players numTeams rngAt).bestAssignment

theorem keyLe_trans {α : Type} (f : α → ℚ) : ∀ (x y z : α),
    (fun a b => decide (f a ≤ f b)) x y → (fun a b => decide (f a ≤ f b)) y z →
    (fun a b => decide (f a ≤ f b)) x z := by
  intro x y z hxy hyz
  simp only [decide_eq_true_eq] at hxy hyz ⊢
  exact le_trans hxy hyz

theorem keyLe_total {α : Type} (f : α → ℚ) : ∀ (x y : α),
    ((fun a b => decide (f a ≤ f b)) x y || (fun a b => decide (f a ≤ f b)) y x) = true := by
  intro x y
  simpa using le_total (f x) (f y)

theorem mergeSort_head_firstMin {α : Type} (f : α → ℚ) :
    ∀ (l : List α), l ≠ [] →
      ∃ (t : α) (rest : List α) (k : ℕ) (hk : k < l.length),
        List.mergeSort l (fun a b => decide (f a ≤ f b)) = t :: rest ∧
        l.get ⟨k, hk⟩ = t ∧
        (∀ u ∈ l, f t ≤ f u) ∧
        ∀ i (hi : i < k), f t < f (l.get ⟨i, lt_trans hi hk⟩) := by
  intro l
  induction l with
  | nil => intro h; exact absurd rfl h
  | cons a l' ih =>
    intro _
    obtain ⟨l₁, l₂, h₁, h₂, h₃⟩ :=
      List.mergeSort_cons (keyLe_trans f) (keyLe_total f) a l'
    cases l₁ with
    | nil =>
      simp only [List.nil_append] at h₁ h₂
      have hsorted := List.sorted_mergeSort (keyLe_trans f) (keyLe_total f) (a :: l')
      rw [h₁] at hsorted
      refine ⟨a, l₂, 0, by simp, h₁, rfl, ?_, ?_⟩
      · intro u hu
        have : u ∈ a :: l₂ := by
          rw [← h₁]
          exact List.mem_mergeSort.mpr hu
        rcases List.mem_cons.mp this with rfl | hu'
        · exact le_refl _
        · have := List.rel_of_pairwise_cons hsorted hu'
          simpa using this
      · intro i hi
        exact absurd hi (Nat.not_lt_zero i)
    | cons c l₁' =>
      have hl' : l' ≠ [] := by
        intro e
        subst e
        simp at h₂
      obtain ⟨t, rest, k, hk, e₁, e₂, hmin, hstrict⟩ := ih hl'
      have htc : t = c := by
        rw [h₂] at e₁
        injection e₁ with hhead htail
        exact hhead.symm
      subst htc
      have hca : f t < f a := by
        have := h₃ t (List.mem_cons_self t l₁')
        simp only [Bool.not_eq_true', decide_eq_false_iff_not, not_le] at this
        exact this
      have hk' : k + 1 < (a :: l').length := by
        simpa using Nat.succ_lt_succ hk
      refine ⟨t, l₁' ++ a :: l₂, k + 1, hk', by simpa using h₁, by simpa using e₂, ?_, ?_⟩
      · intro u hu
        rcases List.mem_cons.mp hu with rfl | hu'
        · exact le_of_lt hca
        · exact hmin u hu'
      · intro i hi
        cases i with
        | zero => simpa using hca
        | succ i' =>
          have hi' : i' < k := Nat.lt_of_succ_lt_succ hi
          have := hstrict i' hi'
          simpa using this

theorem teamLe_eq :
    teamLe = fun a b => decide (a.total_engagement_score ≤ b.total_engagement_score) :=
  rfl

/-- C1: in every assignment step the player is appended to the team whose
`total_engagement_score` is minimal among all teams immediately before the
step; ties go to the earliest such team in the arrangement carried over
from the previous iteration (stable sort), and that team's running total
grows by the player's `engagement_score`. -/
theorem assignStep_selects_min (teams : List Team) (player : Player)
    (h : teams ≠ []) :
    ∃ (t : Team) (rest : List Team) (k : ℕ) (hk : k < teams.length),
      List.mergeSort teams teamLe = t :: rest ∧
      assignStep teams player =
        { t with
            players := t.players ++ [player],
            total_engagement_score :=
              t.total_engagement_score + player.engagement_score } :: rest ∧
      teams.get ⟨k, hk⟩ = t ∧
      (∀ u ∈ teams, t.total_engagement_score ≤ u.total_engagement_score) ∧
      ∀ i (hi : i < k),
        t.total_engagement_score <
          (teams.get ⟨i, lt_trans hi hk⟩).total_engagement_score := by
  obtain ⟨t, rest, k, hk, e₁, e₂, hmin, hstrict⟩ :=
    mergeSort_head_firstMin Team.total_engagement_score teams h
  refine ⟨t, rest, k, hk, e₁, ?_, e₂, hmin, hstrict⟩
  unfold assignStep
  rw [teamLe_eq, e₁]

/-- Concrete fixtures used by witnesses and counterexamples. -/
def team1 : Team := { id := 1, players := [], total_engagement_score := 0 }

def team2 : Team := { id := 2, players := [], total_engagement_score := 0 }

def pOne : Player :=
  { player_id := "p1", historical_event_engagements := 1,
    historical_messages_sent := 1, days_active_last_30 := 1,
    engagement_score := 1 }

theorem assignStep_selects_min_witness :
    ([team1, team2] : List Team) ≠ [] ∧
    ∃ (t : Team) (rest : List Team) (k : ℕ) (hk : k < ([team1, team2] : List Team).length),
      List.mergeSort [team1, team2] teamLe = t :: rest ∧
      assignStep [team1, team2] pOne =
        { t with
            players := t.players ++ [pOne],
            total_engagement_score :=
              t.total_engagement_score + pOne.engagement_score } :: rest ∧
      ([team1, team2] : List Team).get ⟨k, hk⟩ = t ∧
      (∀ u ∈ ([team1, team2] : List Team),
        t.total_engagement_score ≤ u.total_engagement_score) ∧
      ∀ i (hi : i < k),
        t.total_engagement_score <
          (([team1, team2] : List Team).get ⟨i, lt_trans hi hk⟩).total_engagement_score :=
  ⟨by decide, assignStep_selects_min [team1, team2] pOne (by decide)⟩

theorem assignStep_length (teams : List Team) (player : Player) :
    (assignStep teams player).length = teams.length := by
  by_cases hts : teams = []
  · subst hts
    simp [assignStep]
  · obtain ⟨t, rest, k, hk, e₁, -, -, -⟩ :=
      mergeSort_head_firstMin Team.total_engagement_score teams hts
    have hstep : assignStep teams player =
        { t with
            players := t.players ++ [player],
            total_engagement_score :=
              t.total_engagement_score + player.engagement_score } :: rest := by
      unfold assignStep
      rw [teamLe_eq, e₁]
    have hlen : rest.length + 1 = teams.length := by
      have := congrArg List.length e₁
      simpa using this.symm
    rw [hstep]
    simp only [List.length_cons]
    omega

theorem assignStep_ne_nil (teams : List Team) (player : Player) (h : teams ≠ []) :
    assignStep teams player ≠ [] := by
  intro e
  have := assignStep_length teams player
  rw [e] at this
  exact h (List.eq_nil_of_length_eq_zero this.symm)

theorem assignStep_flatten_perm (teams : List Team) (player : Player)
    (h : teams ≠ []) :
    List.Perm ((assignStep teams player).map Team.players).flatten
      (player :: (teams.map Team.players).flatten) := by
  obtain ⟨t, rest, k, hk, e₁, e₂, hmin, hstrict⟩ :=
    mergeSort_head_firstMin Team.total_engagement_score teams h
  have hstep : assignStep teams player =
      { t with
          players := t.players ++ [player],
          total_engagement_score :=
            t.total_engagement_score + player.engagement_score } :: rest := by
    unfold assignStep
    rw [teamLe_eq, e₁]
  have hperm : List.Perm (teams.map Team.players) ((t :: rest).map Team.players) := by
    refine List.Perm.map Team.players ?_
    have := List.mergeSort_perm teams
      (fun a b => decide (a.total_engagement_score ≤ b.total_engagement_score))
    rw [e₁] at this
    exact this.symm
  have hflat : List.Perm (teams.map Team.players).flatten
      (t.players ++ (rest.map Team.players).flatten) := by
    simpa using hperm.flatten
  rw [hstep]
  simp only [List.map_cons, List.flatten_cons]
  have e : (t.players ++ [player]) ++ (rest.map Team.players).flatten
      = t.players ++ player :: (rest.map Team.players).flatten := by
    rw [List.append_assoc]
    rfl
  rw [e]
  exact List.perm_middle.trans ((hflat.symm).cons player)

theorem assignPlayers_flatten_perm :
    ∀ (ps : List Player) (teams : List Team), teams ≠ [] →
      List.Perm ((assignPlayers ps teams).map Team.players).flatten
        (ps ++ (teams.map Team.players).flatten) := by
  intro ps
  induction ps with
  | nil => intro teams _; simp [assignPlayers]
  | cons p ps ih =>
    intro teams h
    have hne := assignStep_ne_nil teams p h
    have step := assignStep_flatten_perm teams p h
    have tail := ih (assignStep teams p) hne
    have : List.Perm ((assignPlayers ps (assignStep teams p)).map Team.players).flatten
        (ps ++ (p :: (teams.map Team.players).flatten)) :=
      tail.trans (List.Perm.append_left ps step)
    show List.Perm ((assignPlayers ps (assignStep teams p)).map Team.players).flatten _
    exact this.trans List.perm_middle

theorem makeTeams_length (numTeams : ℤ) :
    (makeTeams numTeams).length = numTeams.toNat := by
  unfold makeTeams
  rw [List.length_map, List.length_range]

theorem makeTeams_ne_nil (numTeams : ℤ) (h : 1 ≤ numTeams) :
    makeTeams numTeams ≠ [] := by
  intro e
  have h0 : numTeams.toNat = 0 := by
    have := makeTeams_length numTeams
    rw [e] at this
    simpa using this.symm
  omega

theorem makeTeams_flatten_nil (numTeams : ℤ) :
    ((makeTeams numTeams).map Team.players).flatten = [] := by
  rw [List.flatten_eq_nil_iff]
  intro xs hxs
  simp only [makeTeams, List.map_map, List.mem_map, Function.comp] at hxs
  obtain ⟨i, -, h⟩ := hxs
  exact h.symm

theorem runTrial_flatten_perm (players : List Player) (numTeams : ℤ)
    (rng : ℕ → ℚ) (h : 1 ≤ numTeams) :
    List.Perm ((runTrial players numTeams rng).map Team.players).flatten players := by
  unfold runTrial
  have base := assignPlayers_flatten_perm (shuffle players rng)
    (makeTeams numTeams) (makeTeams_ne_nil numTeams h)
  rw [makeTeams_flatten_nil] at base
  simp only [List.append_nil] at base
  exact base.trans (shuffle_perm players rng)

/-- Dispersion of trial `i`, as tracked by the trial loop. -/
noncomputable def trialDispersion (players : List Player) (numTeams : ℤ)
    (rngAt : ℕ → ℕ → ℚ) (i : ℕ) : ℝ :=
  trialStdDev (runTrial players numTeams (rngAt i))

open Classical in
/-- Index of the first trial among `0..k` attaining the minimal dispersion
of `f`: the argmin the loop's strict-improvement update tracks. -/
noncomputable def bestIdxUpto (f : ℕ → ℝ) : ℕ → ℕ
  | 0 => 0
  | k + 1 => if f (k + 1) < f (bestIdxUpto f k) then k + 1 else bestIdxUpto f k

theorem bestIdxUpto_le (f : ℕ → ℝ) : ∀ k, bestIdxUpto f k ≤ k := by
  intro k
  induction k with
  | zero => simp [bestIdxUpto]
  | succ n ih =>
    rw [bestIdxUpto]
    split
    · exact le_refl _
    · exact le_trans ih (Nat.le_succ n)

theorem bestIdxUpto_min (f : ℕ → ℝ) : ∀ k, ∀ i ≤ k, f (bestIdxUpto f k) ≤ f i := by
  intro k
  induction k with
  | zero =>
    intro i hi
    have h0 : i = 0 := Nat.le_zero.mp hi
    subst h0
    simp [bestIdxUpto]
  | succ n ih =>
    intro i hi
    by_cases hlt : f (n + 1) < f (bestIdxUpto f n)
    · rw [bestIdxUpto, if_pos hlt]
      rcases eq_or_lt_of_le hi with h | h
      · subst h
        exact le_refl _
      · exact le_of_lt (lt_of_lt_of_le hlt (ih i (Nat.lt_succ_iff.mp h)))
    · rw [bestIdxUpto, if_neg hlt]
      rcases eq_or_lt_of_le hi with h | h
      · subst h
        exact le_of_not_lt hlt
      · exact ih i (Nat.lt_succ_iff.mp h)

theorem bestIdxUpto_first (f : ℕ → ℝ) :
    ∀ k, ∀ i < bestIdxUpto f k, f (bestIdxUpto f k) < f i := by
  intro k
  induction k with
  | zero =>
    intro i hi
    simp [bestIdxUpto] at hi
  | succ n ih =>
    intro i hi
    by_cases hlt : f (n + 1) < f (bestIdxUpto f n)
    · rw [bestIdxUpto, if_pos hlt] at hi ⊢
      exact lt_of_lt_of_le hlt (bestIdxUpto_min f n i (Nat.lt_succ_iff.mp hi))
    · rw [bestIdxUpto, if_neg hlt] at hi ⊢
      exact ih i hi

theorem range_foldl_selectTrial (players : List Player) (numTeams : ℤ)
    (rngAt : ℕ → ℕ → ℚ) :
    ∀ k, (List.range (k + 1)).foldl (selectTrial players numTeams rngAt) ⟨[], ⊤, -1⟩ =
      { bestAssignment := runTrial players numTeams
          (rngAt (bestIdxUpto (trialDispersion players numTeams rngAt) k)),
        lowestStdDev :=
          ((trialDispersion players numTeams rngAt
            (bestIdxUpto (trialDispersion players numTeams rngAt) k) : ℝ) : WithTop ℝ),
        bestTrialIndex :=
          ((bestIdxUpto (trialDispersion players numTeams rngAt) k : ℕ) : ℤ) + 1 } := by
  intro k
  induction k with
  | zero =>
    rw [List.range_succ, List.range_zero, List.nil_append]
    show selectTrial players numTeams rngAt ⟨[], ⊤, -1⟩ 0 = _
    unfold selectTrial
    dsimp only
    rw [if_pos (WithTop.coe_lt_top _)]
    rfl
  | succ n ih =>
    rw [List.range_succ, List.foldl_append, ih]
    show selectTrial players numTeams rngAt _ (n + 1) = _
    unfold selectTrial
    dsimp only
    by_cases h : (↑(trialStdDev (runTrial players numTeams (rngAt (n + 1)))) : WithTop ℝ) <
        ↑(trialDispersion players numTeams rngAt
          (bestIdxUpto (trialDispersion players numTeams rngAt) n))
    · rw [if_pos h]
      have h' : trialDispersion players numTeams rngAt (n + 1) <
          trialDispersion players numTeams rngAt
            (bestIdxUpto (trialDispersion players numTeams rngAt) n) :=
        WithTop.coe_lt_coe.mp h
      rw [show bestIdxUpto (trialDispersion players numTeams rngAt) (n + 1) = n + 1 by
        rw [bestIdxUpto, if_pos h']]
      rfl
    · rw [if_neg h]
      have h' : ¬ (trialDispersion players numTeams rngAt (n + 1) <
          trialDispersion players numTeams rngAt
            (bestIdxUpto (trialDispersion players numTeams rngAt) n)) :=
        fun hc => h (WithTop.coe_lt_coe.mpr hc)
      rw [show bestIdxUpto (trialDispersion players numTeams rngAt) (n + 1) =
          bestIdxUpto (trialDispersion players numTeams rngAt) n by
        rw [bestIdxUpto, if_neg h']]

theorem runTrials_eq (players : List Player) (numTeams : ℤ) (rngAt : ℕ → ℕ → ℚ) :
    runTrials players numTeams rngAt =
      { bestAssignment := runTrial players numTeams
          (rngAt (bestIdxUpto (trialDispersion players numTeams rngAt) 9)),
        lowestStdDev :=
          ((trialDispersion players numTeams rngAt
            (bestIdxUpto (trialDispersion players numTeams rngAt) 9) : ℝ) : WithTop ℝ),
        bestTrialIndex :=
          ((bestIdxUpto (trialDispersion players numTeams rngAt) 9 : ℕ) : ℤ) + 1 } :=
  range_foldl_selectTrial players numTeams rngAt 9

theorem foldl_add_from : ∀ (l : List ℚ) (a : ℚ),
    l.foldl (fun x y => x + y) a = a + l.sum := by
  intro l
  induction l with
  | nil => intro a; simp
  | cons b t ih =>
    intro a
    simp only [List.foldl_cons, List.sum_cons]
    rw [ih (a + b), add_assoc]

theorem foldl_sq_from (m : ℚ) : ∀ (l : List ℚ) (a : ℚ),
    l.foldl (fun x y => x + (y - m) ^ 2) a = a + (l.map (fun y => (y - m) ^ 2)).sum := by
  intro l
  induction l with
  | nil => intro a; simp
  | cons b t ih =>
    intro a
    simp only [List.foldl_cons, List.map_cons, List.sum_cons]
    rw [ih (a + (b - m) ^ 2), add_assoc]

theorem calculateVariance_eq (l : List ℚ) :
    calculateVariance l =
      (l.map (fun x => (x - l.sum / (l.length : ℚ)) ^ 2)).sum / (l.length : ℚ) := by
  unfold calculateVariance
  dsimp only
  rw [foldl_add_from l 0, zero_add, foldl_sq_from _ l 0, zero_add]

theorem calculateStandardDeviation_eq (l : List ℚ) (h : l ≠ []) :
    calculateStandardDeviation l =
      Real.sqrt (((l.map (fun x => (x - l.sum / (l.length : ℚ)) ^ 2)).sum /
        (l.length : ℚ) : ℚ)) := by
  unfold calculateStandardDeviation
  rw [if_neg (by simpa using h), calculateVariance_eq]

/-- C2: the trial selector runs exactly 10 trials; the returned partition is
the partition of some trial `j` whose dispersion is a minimum over all 10
trials, and every strictly earlier trial has strictly larger dispersion (so
on exact ties the earliest minimum is kept, never overwritten); the
dispersion of a trial is the population standard deviation (dividing by the
number of teams, not one less) of the per-team averages, an empty team's
average taken with divisor 1. -/
theorem trialSelection_min_first (players : List Player) (numTeams : ℤ)
    (rngAt : ℕ → ℕ → ℚ) :
    trials = 10 ∧
    (∃ j, j < trials ∧
      (runTrials players numTeams rngAt).bestAssignment =
        runTrial players numTeams (rngAt j) ∧
      (runTrials players numTeams rngAt).lowestStdDev =
        ((trialDispersion players numTeams rngAt j : ℝ) : WithTop ℝ) ∧
      (∀ i, i < trials → trialDispersion players numTeams rngAt j ≤
        trialDispersion players numTeams rngAt i) ∧
      (∀ i, i < j → trialDispersion players numTeams rngAt j <
        trialDispersion players numTeams rngAt i)) ∧
    (∀ teams : List Team,
      trialStdDev teams = calculateStandardDeviation (teams.map teamAvg)) ∧
    (∀ l : List ℚ, l ≠ [] → calculateStandardDeviation l =
      Real.sqrt (((l.map (fun x => (x - l.sum / (l.length : ℚ)) ^ 2)).sum /
        (l.length : ℚ) : ℚ))) ∧
    (∀ t : Team, t.players = [] → teamAvg t = t.total_engagement_score / 1) := by
  refine ⟨rfl,
    ⟨bestIdxUpto (trialDispersion players numTeams rngAt) 9, ?_, ?_, ?_, ?_, ?_⟩,
    fun teams => rfl, calculateStandardDeviation_eq, ?_⟩
  · have := bestIdxUpto_le (trialDispersion players numTeams rngAt) 9
    show _ < trials
    unfold trials
    omega
  · rw [runTrials_eq]
  · rw [runTrials_eq]
  · intro i hi
    have hi' : i ≤ 9 := by
      unfold trials at hi
      omega
    exact bestIdxUpto_min (trialDispersion players numTeams rngAt) 9 i hi'
  · exact bestIdxUpto_first (trialDispersion players numTeams rngAt) 9
  · intro t h
    unfold teamAvg
    rw [h]
    rfl

/-- C5: for every trial with at least one team, the teams' player lists
taken together are exactly the input players, each exactly once (as a
multiset, i.e. up to permutation); the same holds for the final chosen
partition, which is the partition of one of the trials. -/
theorem conservation_allTrials (numTeams : ℤ) (hn : 1 ≤ numTeams)
    (players : List Player) (rng : ℕ → ℚ) (rngAt : ℕ → ℕ → ℚ) :
    List.Perm ((runTrial players numTeams rng).map Team.players).flatten players ∧
    ∃ j, j < trials ∧
      (runTrials players numTeams rngAt).bestAssignment =
        runTrial players numTeams (rngAt j) ∧
      List.Perm
        (((runTrials players numTeams rngAt).bestAssignment.map Team.players).flatten)
        players := by
  refine ⟨runTrial_flatten_perm players numTeams rng hn,
    bestIdxUpto (trialDispersion players numTeams rngAt) 9, ?_, ?_, ?_⟩
  · have := bestIdxUpto_le (trialDispersion players numTeams rngAt) 9
    unfold trials
    omega
  · rw [runTrials_eq]
  · rw [runTrials_eq]
    exact runTrial_flatten_perm players numTeams _ hn

/-- Constant generator fixtures for witnesses. -/
def rngHalf : ℕ → ℚ := fun _ => 1 / 2

def rngAtHalf : ℕ → ℕ → ℚ := fun _ _ => 1 / 2

theorem conservation_allTrials_witness :
    (1 : ℤ) ≤ 2 ∧
    (List.Perm ((runTrial [pOne] 2 rngHalf).map Team.players).flatten [pOne] ∧
    ∃ j, j < trials ∧
      (runTrials [pOne] 2 rngAtHalf).bestAssignment =
        runTrial [pOne] 2 (rngAtHalf j) ∧
      List.Perm
        (((runTrials [pOne] 2 rngAtHalf).bestAssignment.map Team.players).flatten)
        [pOne]) :=
  ⟨by decide, conservation_allTrials 2 (by decide) [pOne] rngHalf rngAtHalf⟩

/-- C4: the shuffler returns a permutation of its input, computed by the
standard swap-based shuffle of the spec (the source's extra iteration at
index 0 is an identity swap when the draws lie in `[0,1)`), and the same
draw stream on the same input always yields the same permutation. -/
theorem shuffle_swapModel_deterministic {α : Type} (array : List α)
    (rng rng2 : ℕ → ℚ) (hrng : ∀ j, 0 ≤ rng j ∧ rng j < 1)
    (heq : ∀ j, rng2 j = rng j) :
    List.Perm (shuffle array rng) array ∧
    shuffle array rng = shuffleSpecModel array rng ∧
    shuffle array rng2 = shuffle array rng := by
  refine ⟨shuffle_perm array rng, shuffle_eq_shuffleSpecModel array rng hrng, ?_⟩
  rw [funext heq]

theorem shuffle_swapModel_deterministic_witness :
    (∀ j : ℕ, 0 ≤ rngHalf j ∧ rngHalf j < 1) ∧
    (List.Perm (shuffle [(1 : ℚ), 2, 3] rngHalf) [(1 : ℚ), 2, 3] ∧
     shuffle [(1 : ℚ), 2, 3] rngHalf = shuffleSpecModel [(1 : ℚ), 2, 3] rngHalf ∧
     shuffle [(1 : ℚ), 2, 3] rngHalf = shuffle [(1 : ℚ), 2, 3] rngHalf) :=
  ⟨fun j => ⟨by norm_num [rngHalf], by norm_num [rngHalf]⟩,
   shuffle_swapModel_deterministic [(1 : ℚ), 2, 3] rngHalf rngHalf
     (fun j => ⟨by norm_num [rngHalf], by norm_num [rngHalf]⟩) (fun j => rfl)⟩

theorem foldl_min_le : ∀ (xs : List ℚ) (x : ℚ), xs.foldl min x ≤ x := by
  intro xs
  induction xs with
  | nil => intro x; exact le_refl x
  | cons a t ih => intro x; exact le_trans (ih (min x a)) (min_le_left x a)

theorem foldl_min_le_mem : ∀ (xs : List ℚ) (x v : ℚ), v ∈ xs → xs.foldl min x ≤ v := by
  intro xs
  induction xs with
  | nil => intro x v hv; simp at hv
  | cons a t ih =>
    intro x v hv
    rcases List.mem_cons.mp hv with rfl | hv'
    · exact le_trans (foldl_min_le t (min x v)) (min_le_right x v)
    · exact ih (min x a) v hv'

theorem le_foldl_max : ∀ (xs : List ℚ) (x : ℚ), x ≤ xs.foldl max x := by
  intro xs
  induction xs with
  | nil => intro x; exact le_refl x
  | cons a t ih => intro x; exact le_trans (le_max_left x a) (ih (max x a))

theorem mem_le_foldl_max : ∀ (xs : List ℚ) (x v : ℚ), v ∈ xs → v ≤ xs.foldl max x := by
  intro xs
  induction xs with
  | nil => intro x v hv; simp at hv
  | cons a t ih =>
    intro x v hv
    rcases List.mem_cons.mp hv with rfl | hv'
    · exact le_trans (le_max_right x v) (le_foldl_max t (max x v))
    · exact ih (max x a) v hv'

theorem listMin_le (values : List ℚ) (v : ℚ) (h : v ∈ values) : listMin values ≤ v := by
  cases values with
  | nil => simp at h
  | cons a t =>
    rcases List.mem_cons.mp h with rfl | h'
    · exact foldl_min_le t v
    · exact foldl_min_le_mem t a v h'

theorem le_listMax (values : List ℚ) (v : ℚ) (h : v ∈ values) : v ≤ listMax values := by
  cases values with
  | nil => simp at h
  | cons a t =>
    rcases List.mem_cons.mp h with rfl | h'
    · exact le_foldl_max t v
    · exact mem_le_foldl_max t a v h'

theorem normalizedValue_bounds (players : List Player) (m : Metric) (p : Player)
    (hp : p ∈ players) :
    0 ≤ normalizedValue players m (p.metric m) ∧
    normalizedValue players m (p.metric m) ≤ 1 := by
  unfold normalizedValue
  have hmem : p.metric m ∈ players.map (fun q => q.metric m) :=
    List.mem_map_of_mem _ hp
  have h1 : metricMin players m ≤ p.metric m := listMin_le _ _ hmem
  have h2 : p.metric m ≤ metricMax players m := le_listMax _ _ hmem
  by_cases hd : metricMax players m - metricMin players m = 0
  · rw [if_pos hd]
    exact ⟨le_refl 0, zero_le_one⟩
  · rw [if_neg hd]
    have hlt : 0 < metricMax players m - metricMin players m := by
      rcases lt_or_eq_of_le (by linarith : (0 : ℚ) ≤ metricMax players m - metricMin players m)
        with h | h
      · exact h
      · exact absurd h.symm hd
    constructor
    · apply div_nonneg
      · linarith
      · linarith
    · rw [div_le_one hlt]
      linarith

def pZero : Player :=
  { player_id := "p0", historical_event_engagements := 0,
    historical_messages_sent := 0, days_active_last_30 := 0,
    engagement_score := 0 }

/-- C3: every record returned by the scorer is an input record whose
`engagement_score` has been set to the arithmetic mean, over the three
metrics, of the min-max normalized values (with min and max taken across
all players, and a degenerate all-equal metric contributing 0), and that
score lies in the interval from 0 to 1. -/
theorem normalizeAndScore_mean_bounds (players : List Player) (q : Player)
    (hq : q ∈ normalizeAndScore players theMetrics) :
    (∃ p ∈ players,
      q = { p with
              engagement_score :=
                (normalizedValue players Metric.historical_event_engagements
                    p.historical_event_engagements +
                  normalizedValue players Metric.historical_messages_sent
                    p.historical_messages_sent +
                  normalizedValue players Metric.days_active_last_30
                    p.days_active_last_30) / 3 }) ∧
    0 ≤ q.engagement_score ∧ q.engagement_score ≤ 1 := by
  obtain ⟨p, hp, hq⟩ := List.mem_map.mp hq
  subst hq
  have hb1 := normalizedValue_bounds players Metric.historical_event_engagements p hp
  have hb2 := normalizedValue_bounds players Metric.historical_messages_sent p hp
  have hb3 := normalizedValue_bounds players Metric.days_active_last_30 p hp
  have hscore :
      (theMetrics.foldl
          (fun acc m => acc + normalizedValue players m (p.metric m)) 0) /
        ((theMetrics.length : ℕ) : ℚ) =
      (normalizedValue players Metric.historical_event_engagements
          p.historical_event_engagements +
        normalizedValue players Metric.historical_messages_sent
          p.historical_messages_sent +
        normalizedValue players Metric.days_active_last_30
          p.days_active_last_30) / 3 := by
    simp only [theMetrics, List.foldl_cons, List.foldl_nil, List.length_cons,
      List.length_nil, Player.metric]
    norm_num
  constructor
  · refine ⟨p, hp, ?_⟩
    show ({ p with
        engagement_score :=
          (theMetrics.foldl
              (fun acc m => acc + normalizedValue players m (p.metric m)) 0) /
            ((theMetrics.length : ℕ) : ℚ) } : Player) = _
    rw [hscore]
  · show 0 ≤ (theMetrics.foldl
        (fun acc m => acc + normalizedValue players m (p.metric m)) 0) /
          ((theMetrics.length : ℕ) : ℚ) ∧
      (theMetrics.foldl
        (fun acc m => acc + normalizedValue players m (p.metric m)) 0) /
          ((theMetrics.length : ℕ) : ℚ) ≤ 1
    rw [hscore]
    simp only [Player.metric] at hb1 hb2 hb3
    constructor
    · apply div_nonneg
      · linarith [hb1.1, hb2.1, hb3.1]
      · norm_num
    · rw [div_le_one (by norm_num : (0 : ℚ) < 3)]
      linarith [hb1.2, hb2.2, hb3.2]

theorem normalizeAndScore_mean_bounds_witness :
    (pOne ∈ normalizeAndScore [pZero, pOne] theMetrics) ∧
    (∃ p ∈ [pZero, pOne],
      pOne = { p with
                engagement_score :=
                  (normalizedValue [pZero, pOne] Metric.historical_event_engagements
                      p.historical_event_engagements +
                    normalizedValue [pZero, pOne] Metric.historical_messages_sent
                      p.historical_messages_sent +
                    normalizedValue [pZero, pOne] Metric.days_active_last_30
                      p.days_active_last_30) / 3 }) ∧
    0 ≤ pOne.engagement_score ∧ pOne.engagement_score ≤ 1 :=
  ⟨by decide, normalizeAndScore_mean_bounds [pZero, pOne] pOne (by decide)⟩

/-- Raw-score twin of `pOne`: the same metrics with `engagement_score` still
0, as records look when handed to the scorer. -/
def pOneRaw : Player :=
  { player_id := "p1", historical_event_engagements := 1,
    historical_messages_sent := 1, days_active_last_30 := 1,
    engagement_score := 0 }

/-- C9 counterexample: after the scorer runs, the caller's records are no
longer the original ones — the record with raw score 0 now carries score 1,
because the `map` callback wrote the computed score into it. -/
theorem scorer_mutates_input_cex :
    inputRecordsAfterScoring [pZero, pOneRaw] theMetrics ≠ [pZero, pOneRaw] := by
  decide

/-- C9 amended: the scorer never changes `player_id` or any of the three
metric values (record `i` of the output agrees with record `i` of the input
on those fields), but it does write the computed `engagement_score` into
the input records themselves: the array the caller holds afterwards is
exactly the returned scored collection. -/
theorem normalizeAndScore_preserves_metrics (players : List Player)
    (metrics : List Metric) :
    List.Forall₂ (fun p q =>
      q.player_id = p.player_id ∧
      q.historical_event_engagements = p.historical_event_engagements ∧
      q.historical_messages_sent = p.historical_messages_sent ∧
      q.days_active_last_30 = p.days_active_last_30)
      players (normalizeAndScore players metrics) ∧
    inputRecordsAfterScoring players metrics = normalizeAndScore players metrics := by
  refine ⟨?_, rfl⟩
  unfold normalizeAndScore
  rw [List.forall₂_map_right_iff]
  rw [List.forall₂_same]
  intro x _
  exact ⟨rfl, rfl, rfl, rfl⟩

/-- C8 counterexample: parsing zero players does not raise an
`EmptyInputError`; the scorer is invoked on the empty collection and the
processing stage returns an empty, error-free player list. -/
theorem empty_input_no_error_cex :
    readAndProcessPlayerData [] = Except.ok [] ∧
    readAndProcessPlayerData [] ≠ Except.error RunError.emptyInput :=
  ⟨rfl, fun h => Except.noConfusion h⟩

/-- C8 amended: with zero parsed players the run does not fail: the degenerate
min/max values are never consumed, the scorer returns the empty collection,
and the whole pipeline completes with `Except.ok`, returning the untouched
fresh team list — a partition all of whose teams are empty. -/
theorem empty_input_completes (numTeams : ℤ) (rngAt : ℕ → ℕ → ℚ) :
    readAndProcessPlayerData [] = Except.ok [] ∧
    mainProgram [] numTeams rngAt = Except.ok (makeTeams numTeams) ∧
    ∀ t ∈ makeTeams numTeams, t.players = [] := by
  refine ⟨rfl, ?_, ?_⟩
  · show Except.ok ((runTrials [] numTeams rngAt).bestAssignment) =
      Except.ok (makeTeams numTeams)
    rw [runTrials_eq]
    rfl
  · intro t ht
    unfold makeTeams at ht
    obtain ⟨i, -, rfl⟩ := List.mem_map.mp ht
    rfl

theorem makeTeams_nonpos (numTeams : ℤ) (h : numTeams ≤ 0) :
    makeTeams numTeams = [] := by
  unfold makeTeams
  rw [show numTeams.toNat = 0 by omega]
  rfl

theorem assignStep_nil (player : Player) : assignStep [] player = [] := by
  simp [assignStep]

theorem assignPlayers_nil : ∀ ps : List Player, assignPlayers ps [] = [] := by
  intro ps
  induction ps with
  | nil => rfl
  | cons p ps ih =>
    show assignPlayers ps (assignStep [] p) = []
    rw [assignStep_nil]
    exact ih

theorem runTrial_nonpos (players : List Player) (numTeams : ℤ) (rng : ℕ → ℚ)
    (h : numTeams ≤ 0) : runTrial players numTeams rng = [] := by
  unfold runTrial
  rw [makeTeams_nonpos numTeams h]
  exact assignPlayers_nil _

theorem calculateStandardDeviation_nil : calculateStandardDeviation [] = 0 := by
  unfold calculateStandardDeviation
  rfl

theorem runTrials_nonpos (players : List Player) (numTeams : ℤ)
    (rngAt : ℕ → ℕ → ℚ) (h : numTeams ≤ 0) :
    (runTrials players numTeams rngAt).bestAssignment = [] := by
  rw [runTrials_eq]
  exact runTrial_nonpos players numTeams _ h

/-- Parsed-record fixture for counterexamples and witnesses. -/
def rec1 : RawRecord :=
  { player_id := "p1", historical_event_engagements := 1,
    historical_messages_sent := 1, days_active_last_30 := 1 }

/-- C7 counterexample: with team count 0 (which is ≤ 0) the program does
not fail with an `InvalidConfigurationError` — it completes and returns an
empty partition even though a player was supplied. -/
theorem nonpositive_teams_cex :
    mainProgram [rec1] 0 rngAtHalf = Except.ok [] ∧
    mainProgram [rec1] 0 rngAtHalf ≠ Except.error RunError.invalidConfiguration := by
  have h : mainProgram [rec1] 0 rngAtHalf = Except.ok [] := by
    show Except.ok ((runTrials _ 0 rngAtHalf).bestAssignment) = Except.ok []
    rw [runTrials_nonpos _ 0 rngAtHalf (le_refl 0)]
  refine ⟨h, ?_⟩
  rw [h]
  exact fun hc => Except.noConfusion hc

/-- C7 amended: a team count of 0 or less is not rejected: the source
builds no validation and no `InvalidConfigurationError` exists; the run
completes normally, with an empty team list (so every player is dropped)
and an empty final partition. -/
theorem nonpositive_teams_no_error (records : List RawRecord) (numTeams : ℤ)
    (rngAt : ℕ → ℕ → ℚ) (h : numTeams ≤ 0) :
    mainProgram records numTeams rngAt = Except.ok [] := by
  show Except.ok ((runTrials _ numTeams rngAt).bestAssignment) = Except.ok []
  rw [runTrials_nonpos _ numTeams rngAt h]

theorem nonpositive_teams_no_error_witness :
    (0 : ℤ) ≤ 0 ∧ mainProgram [rec1] 0 rngAtHalf = Except.ok [] :=
  ⟨by decide, nonpositive_teams_no_error [rec1] 0 rngAtHalf (by decide)⟩

/-- C10: with a team count of 0 the whole pipeline is total and raises no
error: the trial builds an empty team list, each per-player step is a no-op
(the guarded `teams[0]` lookup finds nothing, so every player is silently
dropped), the team-average list is empty, the standard deviation of the
empty list is 0 rather than a failure, and the program returns normally. -/
theorem zero_teams_total (p : Player) (ps : List Player)
    (records : List RawRecord) (rng : ℕ → ℚ) (rngAt : ℕ → ℕ → ℚ) :
    makeTeams 0 = [] ∧
    assignStep [] p = [] ∧
    runTrial ps 0 rng = [] ∧
    (runTrial ps 0 rng).map teamAvg = [] ∧
    calculateStandardDeviation [] = 0 ∧
    trialStdDev (runTrial ps 0 rng) = 0 ∧
    (runTrials ps 0 rngAt).bestAssignment = [] ∧
    ∃ teams, mainProgram records 0 rngAt = Except.ok teams := by
  have htrial : runTrial ps 0 rng = [] := runTrial_nonpos ps 0 rng (le_refl 0)
  refine ⟨makeTeams_nonpos 0 (le_refl 0), assignStep_nil p, htrial, ?_, ?_, ?_, ?_, ⟨_, rfl⟩⟩
  · rw [htrial]
    rfl
  · exact calculateStandardDeviation_nil
  · rw [trialStdDev, htrial]
    exact calculateStandardDeviation_nil
  · exact runTrials_nonpos ps 0 rngAt (le_refl 0)

/-- Second all-zero-metric player: with two identical players both
engagement scores come out 0 (degenerate metrics normalize to 0). -/
def pZeroB : Player :=
  { player_id := "p0b", historical_event_engagements := 0,
    historical_messages_sent := 0, days_active_last_30 := 0,
    engagement_score := 0 }

/-- C6 counterexample: 2 players of engagement score 0 and 3 teams.  Every
re-sort leaves the already-picked team in front (all totals stay 0, and the
sort is stable), so team 1 receives both players: the partition has team
sizes 2, 0, 0, not one player on each of two teams as the claim states. -/
theorem teams_exceed_players_cex :
    (runTrial [pZero, pZeroB] 3 rngHalf).map (fun t => t.players.length) = [2, 0, 0] ∧
    ¬ ((runTrial [pZero, pZeroB] 3 rngHalf).countP (fun t => t.players.length == 1) =
        ([pZero, pZeroB] : List Player).length) := by
  decide

/-- Invariant of the assignment loop when every score is positive and teams
outnumber assigned players: each team is still empty with total 0, or holds
exactly one player whose positive score is the whole total. -/
def TeamsInv (ts : List Team) : Prop :=
  ∀ t ∈ ts, (t.players = [] ∧ t.total_engagement_score = 0) ∨
    ∃ p : Player, 0 < p.engagement_score ∧ t.players = [p] ∧
      t.total_engagement_score = p.engagement_score

theorem assignStep_inv (ts : List Team) (p : Player)
    (hinv : TeamsInv ts) (hpos : 0 < p.engagement_score)
    (hroom : ts.countP (fun t => t.players.length == 1) < ts.length) :
    TeamsInv (assignStep ts p) ∧
    (assignStep ts p).countP (fun t => t.players.length == 1) =
      ts.countP (fun t => t.players.length == 1) + 1 := by
  have hne : ts ≠ [] := by
    intro e
    subst e
    simp at hroom
  obtain ⟨t, rest, k, hk, e₁, e₂, hmin, hstrict⟩ :=
    mergeSort_head_firstMin Team.total_engagement_score ts hne
  have hstep : assignStep ts p =
      { t with
          players := t.players ++ [p],
          total_engagement_score :=
            t.total_engagement_score + p.engagement_score } :: rest := by
    unfold assignStep
    rw [teamLe_eq, e₁]
  have htmem : t ∈ ts := by
    rw [← e₂]
    exact List.get_mem ts k hk
  have hex : ∃ t0 ∈ ts, ¬ ((fun u : Team => u.players.length == 1) t0 = true) := by
    by_contra hall
    push_neg at hall
    have : ts.countP (fun u : Team => u.players.length == 1) = ts.length :=
      List.countP_eq_length.mpr hall
    omega
  obtain ⟨t0, ht0mem, ht0⟩ := hex
  have ht0' : t0.players = [] ∧ t0.total_engagement_score = 0 := by
    rcases hinv t0 ht0mem with h | ⟨q, _, hpl, _⟩
    · exact h
    · exfalso
      apply ht0
      show (t0.players.length == 1) = true
      rw [hpl]
      rfl
  have htt : t.players = [] ∧ t.total_engagement_score = 0 := by
    have hle : t.total_engagement_score ≤ 0 := by
      have := hmin t0 ht0mem
      rw [ht0'.2] at this
      exact this
    rcases hinv t htmem with h | ⟨q, hq, hpl, htot⟩
    · exact h
    · exfalso
      rw [htot] at hle
      exact absurd hle (not_le.mpr hq)
  have hrest : ∀ u ∈ rest, u ∈ ts := by
    intro u hu
    have : u ∈ List.mergeSort ts
        (fun a b => decide (a.total_engagement_score ≤ b.total_engagement_score)) := by
      rw [e₁]
      exact List.mem_cons_of_mem t hu
    exact List.mem_mergeSort.mp this
  constructor
  · rw [hstep]
    intro u hu
    rcases List.mem_cons.mp hu with rfl | hu'
    · right
      refine ⟨p, hpos, ?_, ?_⟩
      · show t.players ++ [p] = [p]
        rw [htt.1]
        rfl
      · show t.total_engagement_score + p.engagement_score = p.engagement_score
        rw [htt.2]
        ring
    · exact hinv u (hrest u hu')
  · have hcount : ts.countP (fun u : Team => u.players.length == 1) =
        (t :: rest).countP (fun u : Team => u.players.length == 1) := by
      refine List.Perm.countP_eq _ ?_
      rw [← e₁]
      exact (List.mergeSort_perm ts _).symm
    rw [List.countP_cons] at hcount
    have ht1 : ¬ ((t.players.length == 1) = true) := by
      rw [htt.1]
      simp
    have hnew : ((t.players ++ [p]).length == 1) = true := by
      rw [htt.1]
      rfl
    rw [if_neg ht1, Nat.add_zero] at hcount
    rw [hstep, List.countP_cons]
    show List.countP (fun u : Team => u.players.length == 1) rest +
        (if ((t.players ++ [p]).length == 1) = true then 1 else 0) =
      List.countP (fun u : Team => u.players.length == 1) ts + 1
    rw [if_pos hnew, hcount]

theorem assignPlayers_inv :
    ∀ (ps : List Player) (ts : List Team),
      TeamsInv ts → (∀ p ∈ ps, 0 < p.engagement_score) →
      ps.length + ts.countP (fun t => t.players.length == 1) ≤ ts.length →
      TeamsInv (assignPlayers ps ts) ∧
      (assignPlayers ps ts).countP (fun t => t.players.length == 1) =
        ts.countP (fun t => t.players.length == 1) + ps.length ∧
      (assignPlayers ps ts).length = ts.length := by
  intro ps
  induction ps with
  | nil =>
    intro ts hinv _ _
    exact ⟨hinv, by simp [assignPlayers], rfl⟩
  | cons p ps ih =>
    intro ts hinv hpos hroom
    have hroom' : ts.countP (fun t => t.players.length == 1) < ts.length := by
      simp only [List.length_cons] at hroom
      omega
    obtain ⟨hinv', hcount'⟩ :=
      assignStep_inv ts p hinv (hpos p (List.mem_cons_self p ps)) hroom'
    have hlen' : (assignStep ts p).length = ts.length := assignStep_length ts p
    have hroom'' : ps.length +
        (assignStep ts p).countP (fun t => t.players.length == 1) ≤
        (assignStep ts p).length := by
      rw [hcount', hlen']
      simp only [List.length_cons] at hroom
      omega
    obtain ⟨h1, h2, h3⟩ := ih (assignStep ts p) hinv'
      (fun q hq => hpos q (List.mem_cons_of_mem p hq)) hroom''
    refine ⟨h1, ?_, ?_⟩
    · show (assignPlayers ps (assignStep ts p)).countP _ = _
      rw [h2, hcount']
      simp only [List.length_cons]
      omega
    · show (assignPlayers ps (assignStep ts p)).length = _
      rw [h3, hlen']

theorem makeTeams_inv (numTeams : ℤ) : TeamsInv (makeTeams numTeams) := by
  intro t ht
  left
  unfold makeTeams at ht
  obtain ⟨i, -, rfl⟩ := List.mem_map.mp ht
  exact ⟨rfl, rfl⟩

theorem makeTeams_countP_one (numTeams : ℤ) :
    (makeTeams numTeams).countP (fun t => t.players.length == 1) = 0 := by
  rw [List.countP_eq_zero]
  intro t ht
  unfold makeTeams at ht
  obtain ⟨i, -, rfl⟩ := List.mem_map.mp ht
  simp

/-- C6 amended: when the team count exceeds the player count AND every
player's engagement score is positive, exactly `player_count` teams receive
exactly one player (each such team's average is that player's own score)
and the remaining teams end with zero players and average 0.  (Without the
positivity hypothesis the claim fails: a team holding only score-0 players
ties with the empty teams and, by sort stability, stays in front, see the
counterexample.) -/
theorem teams_exceed_players_amended (ps : List Player) (numTeams : ℤ)
    (rng : ℕ → ℚ) (hn : (ps.length : ℤ) < numTeams)
    (hpos : ∀ p ∈ ps, 0 < p.engagement_score) :
    (∀ t ∈ runTrial ps numTeams rng,
      (t.players = [] ∧ teamAvg t = 0) ∨
      ∃ p, t.players = [p] ∧ teamAvg t = p.engagement_score) ∧
    (runTrial ps numTeams rng).countP (fun t => t.players.length == 1) =
      ps.length ∧
    (runTrial ps numTeams rng).countP (fun t => t.players.length == 0) =
      numTeams.toNat - ps.length := by
  have hsh : List.Perm (shuffle ps rng) ps := shuffle_perm ps rng
  have hlen : (shuffle ps rng).length = ps.length := hsh.length_eq
  have hpos' : ∀ p ∈ shuffle ps rng, 0 < p.engagement_score :=
    fun p hp => hpos p (hsh.mem_iff.mp hp)
  have hroom : (shuffle ps rng).length +
      (makeTeams numTeams).countP (fun t => t.players.length == 1) ≤
      (makeTeams numTeams).length := by
    rw [hlen, makeTeams_countP_one, makeTeams_length]
    omega
  obtain ⟨hinv, hcount, hlen2⟩ := assignPlayers_inv (shuffle ps rng)
    (makeTeams numTeams) (makeTeams_inv numTeams) hpos' hroom
  have hrt : runTrial ps numTeams rng =
      assignPlayers (shuffle ps rng) (makeTeams numTeams) := rfl
  have hcount1 : (runTrial ps numTeams rng).countP
      (fun t => t.players.length == 1) = ps.length := by
    rw [hrt, hcount, makeTeams_countP_one, hlen]
    omega
  refine ⟨?_, hcount1, ?_⟩
  · intro t ht
    rw [hrt] at ht
    rcases hinv t ht with ⟨hp0, ht0⟩ | ⟨q, _, hpl, htot⟩
    · left
      refine ⟨hp0, ?_⟩
      rw [teamAvg, hp0, ht0]
      norm_num
    · right
      refine ⟨q, hpl, ?_⟩
      rw [teamAvg, hpl, htot]
      norm_num
  · have hsplit := List.length_eq_countP_add_countP
      (p := fun t : Team => t.players.length == 1) (runTrial ps numTeams rng)
    have hcongr : (runTrial ps numTeams rng).countP
        (fun t => t.players.length == 0) =
        (runTrial ps numTeams rng).countP
          (fun t => ¬ (t.players.length == 1)) := by
      apply List.countP_congr
      intro t ht
      rw [hrt] at ht
      rcases hinv t ht with ⟨hp0, -⟩ | ⟨q, -, hpl, -⟩
      · rw [hp0]
        simp
      · rw [hpl]
        simp
    have hlenrt : (runTrial ps numTeams rng).length = numTeams.toNat := by
      rw [hrt, hlen2, makeTeams_length]
    rw [hcongr]
    omega

theorem teams_exceed_players_amended_witness :
    (([pOne] : List Player).length : ℤ) < 2 ∧
    (∀ p ∈ ([pOne] : List Player), 0 < p.engagement_score) ∧
    ((∀ t ∈ runTrial [pOne] 2 rngHalf,
      (t.players = [] ∧ teamAvg t = 0) ∨
      ∃ p, t.players = [p] ∧ teamAvg t = p.engagement_score) ∧
    (runTrial [pOne] 2 rngHalf).countP (fun t => t.players.length == 1) =
      ([pOne] : List Player).length ∧
    (runTrial [pOne] 2 rngHalf).countP (fun t => t.players.length == 0) =
      (2 : ℤ).toNat - ([pOne] : List Player).length) :=
  ⟨by decide, by decide,
   teams_exceed_players_amended [pOne] 2 rngHalf (by decide) (by decide)⟩
